import Mathlib

set_option autoImplicit false
set_option linter.unusedVariables false

/-!
Shallow embedding of the simple-validator library (src/index.ts).

The library validates a plain JS object against a schema mapping field
names to chains of checks.  The embedding models:
  * the fragment of JS values the validator manipulates (`JSValue`);
  * the object state it reads and mutates (`JSObject`, an association
    list in insertion order, mirroring a JS object's own string keys);
  * a single `Check` as invoked by `Validators.validate`: it sees the
    run context, its field and the field's value read at invocation
    time, and either returns a terminal raw value, throws, or writes
    its field and hands control to the continuation `next`;
  * the chain runner `Validators.validate` (src/index.ts lines 85-111);
  * the result normalizer `valResultToPromise` (lines 457-483), with a
    promise's eventual settlement represented by the `Settled` it
    resolves or rejects to;
  * the orchestrator `_validateObject` (lines 369-437), split into its
    synchronous phase (launching chains, trimming unknown keys) and the
    aggregation promise, whose callbacks fire once per chain
    settlement; the settlement delivery order is an explicit list,
    quantified over permutations of the launched chains' settlements to
    model concurrency.

Promise semantics used throughout: a promise settles at most once; the
first call to resolve or reject wins and later calls are ignored.
-/

/-- JS values manipulated by the validator.  Objects are modelled
structurally as association lists of own string keys in insertion
order.  The embedding has no heap, so reference identity between two
distinct objects is not modelled: `jsStrictEq` on objects is `false`
(the claims only compare primitive or absent values). -/
inductive JSValue where
  | undefined
  | null
  | bool (b : Bool)
  | str (s : String)
  | num (n : Int)
  | obj (fields : List (String × JSValue))

/-- A JS object: own string keys to values, in insertion order.  Keys
of a real JS object are distinct; theorems that need this take a
`Nodup` hypothesis on the key list. -/
abbrev JSObject := List (String × JSValue)

/-- Property read `o[k]`: a missing key yields `undefined`. -/
def objGet (o : JSObject) (k : String) : JSValue :=
  (o.lookup k).getD .undefined

/-- Property write `o[k] = v`: overwrites an existing key in place,
otherwise appends the key (JS insertion order). -/
def objSet (o : JSObject) (k : String) (v : JSValue) : JSObject :=
  match o with
  | [] => [(k, v)]
  | (k1, v1) :: rest =>
      if k1 = k then (k1, v) :: rest else (k1, v1) :: objSet rest k v

/-- Property deletion `delete o[k]`. -/
def objDelete (o : JSObject) (k : String) : JSObject :=
  o.filter (fun kv => kv.1 ≠ k)

/-- The key list `Object.keys(o)`. -/
def objKeys (o : JSObject) : List String :=
  o.map Prod.fst

/-- JS strict equality `===` on the modelled fragment.  Primitives
compare by value; two object values compare unequal because the
embedding does not model reference identity (no claim compares object
references). -/
def jsStrictEq : JSValue → JSValue → Bool
  | .undefined, .undefined => true
  | .null, .null => true
  | .bool a, .bool b => a == b
  | .str a, .str b => a == b
  | .num a, .num b => a == b
  | _, _ => false

/-- Generic property read on any JS value: reading a property of a
non-object primitive yields `undefined` (the `sameAs` walk only reads
properties of values it has checked to be non-null/non-undefined). -/
def jsGet : JSValue → String → JSValue
  | .obj fs, k => objGet fs k
  | _, _ => .undefined

/-- The `options.msg || defaultMsg` idiom: an absent or empty (falsy)
message falls back to the default. -/
def msgOr : Option String → String → String
  | some m, d => if m = "" then d else m
  | none, d => d

/-- A per-field validation error, `ValError` in the source. -/
structure ValError where
  field : String
  msg : String
deriving Repr, DecidableEq

/-- The settlement a `ValidatorResult` promise eventually reaches: it
resolves with `true`, resolves with a `ValError`, or rejects (the
rejection value modelled by the carried error message). -/
inductive Settled where
  | resTrue
  | resErr (e : ValError)
  | rejected (msg : String)
deriving Repr, DecidableEq

/-- Whether a settlement is a rejection. -/
def Settled.isRejected : Settled → Bool
  | .rejected _ => true
  | _ => false

/-- The raw value a Check's invocation returns, as consumed by
`valResultToPromise`: a boolean, a string, an `Error` instance
(modelled by its message), a promise (modelled by its eventual
settlement), or any other value (the unimplemented branch). -/
inductive RawResult where
  | bool (b : Bool)
  | str (s : String)
  | err (msg : String)
  | promise (s : Settled)
  | other
deriving Repr, DecidableEq

/-- The run context a Check receives (`Context` in the source), minus
the unused `errors` accumulator.  For a flat schema `root` and
`current` are the same object; the chain runner models that aliasing by
rebuilding the context from the single threaded object state at every
invocation. -/
structure Ctx where
  root : JSObject
  current : JSObject
  path : String

/-- What one Check invocation does.  Built-in checks either return a
terminal raw value, throw synchronously, or optionally rewrite
`ctx.current[field]` and then return `next()` — `proceed` covers the
latter shape. -/
inductive CheckStep where
  | ret (r : RawResult)
  | throwErr (msg : String)
  | proceed (write : Option JSValue)

/-- A Check as invoked by the chain runner: context, field name, and
the field's value read from `ctx.current[field]` at invocation time. -/
abbrev Check := Ctx → String → JSValue → CheckStep

/-- Result of the synchronous pass of `nextValidatorCall` through the
remaining validators: the raw value the outermost call returns, or the
exception it throws, together with the object state afterwards. -/
inductive StepOut where
  | ret (r : RawResult) (st : JSObject)
  | thrown (msg : String) (st : JSObject)

/-- The continuation-passing walk of `nextValidatorCall`
(src/index.ts lines 92-97): past the last validator it returns `true`;
otherwise it invokes the next Check on `ctx.current[field]` read at
invocation time; a `proceed` step optionally writes the field and hands
control to the continuation, whose value it returns. -/
def runChecks : List Check → JSObject → String → String → StepOut
  | [], st, _, _ => .ret (.bool true) st
  | c :: cs, st, path, field =>
      match c ⟨st, st, path⟩ field (objGet st field) with
      | .ret r => .ret r st
      | .throwErr e => .thrown e st
      | .proceed w =>
          let st1 := match w with
            | some v => objSet st field v
            | none => st
          runChecks cs st1 path field

/-- Result of calling `valResultToPromise`: the promise it returns or
adopts (by its eventual settlement), or the exception the unimplemented
branch throws. -/
inductive PromiseOrThrow where
  | promise (s : Settled)
  | thrown (msg : String)
deriving Repr, DecidableEq

/-- The result normalizer `valResultToPromise` (src/index.ts lines
457-483): a promise is passed through; an `Error` becomes a rejection;
`true` resolves to `true`; `false` resolves to a `ValError` with empty
message bound to `field`; a string resolves to a `ValError` carrying it
as message; anything else throws `Not implemented`. -/
def valResultToPromise : RawResult → String → PromiseOrThrow
  | .promise s, _ => .promise s
  | .err e, _ => .promise (.rejected e)
  | .bool b, field =>
      if b then .promise .resTrue
      else .promise (.resErr ⟨field, ""⟩)
  | .str s, field => .promise (.resErr ⟨field, s⟩)
  | .other, _ => .thrown "Not implemented"

/-- The chain runner `Validators.validate` (src/index.ts lines 85-111): with no
validators it returns `Promise.resolve(true)` untouched; otherwise the
synchronous pass runs inside the promise executor — a thrown exception
rejects the promise (the subsequent `valResultToPromise(undefined)`
throw is a later settlement attempt and loses), and a returned raw
value is normalized, the normalizer's own throw rejecting the promise.
Returns the promise's eventual settlement and the object state after
the synchronous pass.  The `value` argument mirrors the source's
parameter, which the body never uses: every Check re-reads
`ctx.current[field]`. -/
def validate (cs : List Check) (st : JSObject) (path field : String)
    (value : JSValue) : Settled × JSObject :=
  match cs with
  | [] => (.resTrue, st)
  | _ :: _ =>
      match runChecks cs st path field with
      | .thrown e st1 => (.rejected e, st1)
      | .ret r st1 =>
          match valResultToPromise r field with
          | .promise s => (s, st1)
          | .thrown e => (.rejected e, st1)

/-! ## Built-in checks -/

/-- Whether a value is `null` or `undefined`. -/
def jsAbsent : JSValue → Bool
  | .undefined => true
  | .null => true
  | _ => false

/-- Whether a value is exactly `null`. -/
def isJsNull : JSValue → Bool
  | .null => true
  | _ => false

/-- The check `Validators.required` (src/index.ts lines 126-135): fails with
`msg || path + " is required"` when the value is strictly `null`,
`undefined` or the empty string, otherwise returns `next()`. -/
def requiredCheck (msg : Option String) : Check := fun ctx _field v =>
  match v with
  | .null => .ret (.str (msgOr msg (ctx.path ++ " is required")))
  | .undefined => .ret (.str (msgOr msg (ctx.path ++ " is required")))
  | .str s =>
      if s = "" then .ret (.str (msgOr msg (ctx.path ++ " is required")))
      else .proceed none
  | _ => .proceed none

/-- JS `String.prototype.trim`: strip leading and trailing whitespace
characters (modelled by `Char.isWhitespace`, which agrees with the
ECMAScript whitespace set on the claims' inputs). -/
def jsTrim (s : String) : String :=
  ⟨((s.toList.dropWhile Char.isWhitespace).reverse.dropWhile
      Char.isWhitespace).reverse⟩

/-- The check `Validators.isString` (src/index.ts lines 137-158): `undefined`,
`null` and the empty string (all falsy) proceed untouched; a non-empty
string is optionally trimmed and case-folded, written back to
`ctx.current[field]`, and the chain proceeds; any other value fails
with `msg || path + " must be a string."`.  JS `trim` is modelled by
`jsTrim`, `toUpperCase`/`toLowerCase` by `String.toUpper`/
`String.toLower`. -/
def isStringCheck (trim : Bool) (case? : Option String) (msg : Option String) :
    Check := fun ctx _field v =>
  match v with
  | .undefined => .proceed none
  | .null => .proceed none
  | .str s =>
      if s = "" then .proceed none
      else
        let s1 := if trim then jsTrim s else s
        let s2 := match case? with
          | some c =>
              if c = "" then s1
              else if c = "upper" then s1.toUpper
              else if c = "lower" then s1.toLower
              else s1
          | none => s1
        .proceed (some (.str s2))
  | _ => .ret (.str (msgOr msg (ctx.path ++ " must be a string.")))

/-- One compiled entry of the `password` check's `charsets` array: the
four keyword character classes, or a caller-supplied pattern compiled
with `new RegExp(val, "i")`. -/
inductive PwPattern where
  | upper
  | lower
  | number
  | special
  | custom (pat : String)
deriving Repr, DecidableEq

/-- Compilation of `options.req` entries into `charsets`
(src/index.ts lines 192-204): the keywords map to their character
classes, any other entry becomes a caller-supplied pattern. -/
def compileReq (req : List String) : List PwPattern :=
  req.map fun v =>
    if v = "upper" then .upper
    else if v = "lower" then .lower
    else if v = "number" then .number
    else if v = "special" then .special
    else .custom v

/-- The characters of the `special` class
`[ !"#$%&'()*+,-./:;<=>?@[\]^_` ... `~]` (src/index.ts line 200),
spelled with character codes for the quote characters. -/
def specialChars : List Char :=
  (" !\"#$%&" ++ String.singleton (Char.ofNat 39) ++ "()*+,-./:;<=>?@[\\]^_" ++
    String.singleton (Char.ofNat 96) ++ "\x7b|\x7d~").toList

/-- Case-insensitive containment, the semantics of
`new RegExp(pat, "i").test(s)` for a literal (metacharacter-free)
caller-supplied pattern. -/
def ciContains (pat s : String) : Bool :=
  let lpat := pat.toList.map Char.toLower
  let ls := s.toList.map Char.toLower
  (List.range (ls.length + 1)).any fun i => lpat.isPrefixOf (ls.drop i)

/-- The test `pattern.test(value)` for one compiled charset: a `[class]+` regex
matches a string iff the string contains at least one character of the
class. -/
def pwTest (p : PwPattern) (s : String) : Bool :=
  match p with
  | .upper => s.toList.any Char.isUpper
  | .lower => s.toList.any Char.isLower
  | .number => s.toList.any Char.isDigit
  | .special => s.toList.any (fun c => specialChars.contains c)
  | .custom pat => ciContains pat s

/-- Defaulting of `options.req || ['upper','lower','number','special']`:
only an absent (falsy) list falls back; an explicit empty array is
truthy in JS and kept. -/
def passwordReqDefault (req : Option (List String)) : List String :=
  req.getD ["upper", "lower", "number", "special"]

/-- Defaulting of `options.minLength && options.minLength > 0 ?
options.minLength : d`: a present positive bound is kept, anything else
falls back to the default. -/
def passwordBound (o : Option Int) (d : Int) : Int :=
  match o with
  | some n => if 0 < n then n else d
  | none => d

/-- The check `Validators.password` (src/index.ts lines 180-227): fails with
`msg || path + " is invalid."` unless the value is a string whose
length lies within the (defaulted) bounds and which matches every
compiled charset; the source tests the charsets in order and returns
the same failure message at the first miss, so the outcome equals the
`all` of the tests.  JS string `length` counts UTF-16 units; the model
uses codepoints, identical on the ASCII inputs of the claims. -/
def passwordCheck (req : Option (List String)) (minLength maxLength : Option Int)
    (msg : Option String) : Check :=
  let charsets := compileReq (passwordReqDefault req)
  let minL := passwordBound minLength 8
  let maxL := passwordBound maxLength 32
  fun ctx _field v =>
    match v with
    | .str s =>
        if (s.length : Int) < minL || (s.length : Int) > maxL then
          .ret (.str (msgOr msg (ctx.path ++ " is invalid.")))
        else if charsets.all (fun p => pwTest p s) then
          .proceed none
        else
          .ret (.str (msgOr msg (ctx.path ++ " is invalid.")))
    | _ => .ret (.str (msgOr msg (ctx.path ++ " is invalid.")))

/-- The `sameAs` target walk (src/index.ts lines 243-257): starting
from the chosen anchor, descend one slash-separated segment at a time
while the segment's value is neither `undefined` nor `null`; on a
missing segment the walk stops with `null`. -/
def walkPath : JSValue → List String → JSValue
  | cur, [] => cur
  | cur, p :: rest =>
      let v := jsGet cur p
      if jsAbsent v then .null else walkPath v rest

/-- JS `String.prototype.split('/')`: cut a character list at every
slash; the empty string yields `[""]`, like JS. -/
def splitSlash : List Char → List String
  | [] => [""]
  | c :: rest =>
      if c = '/' then "" :: splitSlash rest
      else
        match splitSlash rest with
        | s :: ss => (String.singleton c ++ s) :: ss
        | [] => [String.singleton c]

/-- Whether the `sameAs` path option is root-anchored, the JS test
`pathString.startsWith('$/')` at character level. -/
def sameAsRooted (pathOpt : String) : Bool :=
  ['$', '/'].isPrefixOf pathOpt.toList

/-- The path segments the `sameAs` check walks: the option, stripped of
a `$/` prefix (`substr(2)`), split on `/`. -/
def sameAsSegs (pathOpt : String) : List String :=
  splitSlash (if sameAsRooted pathOpt then pathOpt.toList.drop 2 else pathOpt.toList)

/-- The check `Validators.sameAs` (src/index.ts lines 229-270): the path is
root-anchored when it starts with `$/` (the prefix is stripped), split
on `/`, and walked from `ctx.root` (root-anchored) or `ctx.current`;
the check proceeds when the field value and the walked target are both
absent (`null`/`undefined` value with a `null` target) or strictly
equal, and otherwise fails with `msg || path + " is not same as " +
options.path`. -/
def sameAsCheck (pathOpt : String) (msg : Option String) : Check :=
  let rooted := sameAsRooted pathOpt
  let segs := sameAsSegs pathOpt
  fun ctx _field v =>
    let target := walkPath (.obj (if rooted then ctx.root else ctx.current)) segs
    if jsAbsent v && isJsNull target then .proceed none
    else if jsStrictEq v target then .proceed none
    else .ret (.str (msgOr msg (ctx.path ++ " is not same as " ++ pathOpt)))

/-- The target value a `sameAs` check with option `pathOpt` resolves in
context `ctx`: the stripped, slash-split path walked from the root when
root-anchored, else from the current object. -/
def sameAsTarget (pathOpt : String) (ctx : Ctx) : JSValue :=
  walkPath (.obj (if sameAsRooted pathOpt then ctx.root else ctx.current))
    (sameAsSegs pathOpt)

/-- A minimal mutating check: rewrites its own field to `w` and
proceeds, the shape `isString` uses to write back a transformed
value. -/
def setFieldCheck (w : JSValue) : Check := fun _ctx _field _v =>
  .proceed (some w)

/-- A check that throws synchronously. -/
def throwingCheck (e : String) : Check := fun _ctx _field _v =>
  .throwErr e

/-- A check that returns an `Error` instance. -/
def errorReturningCheck (e : String) : Check := fun _ctx _field _v =>
  .ret (.err e)

/-! ## Orchestrator -/

/-- A schema entry's value as `_validateObject` classifies it: a
`Validators` chain, a falsy value (skipped after the key bookkeeping),
or any other truthy value (the unimplemented nested-schema branch,
which throws). -/
inductive SchemaVal where
  | chain (cs : List Check)
  | falsy
  | other

/-- A schema: field names to schema values, in declaration order
(JS `for..in` enumerates string keys in insertion order). -/
abbrev Schema := List (String × SchemaVal)

/-- The launch loop of `_validateObject` (src/index.ts lines 374-402):
for each schema field, splice the field out of the pending key list,
skip falsy schema values, run a chain's `validate` on a per-field
context (path extended by the field name, object state shared), and
collect the resulting settlement; a truthy non-chain value throws `Not
implemented`, modelled as the `Except` error.  Returns the collected
settlements in launch order, the object state after all synchronous
chain passes, and the leftover keys. -/
def launchLoop : Schema → JSObject → String → List String →
    Except String (List Settled × JSObject × List String)
  | [], st, _, keys => .ok ([], st, keys)
  | (field, sv) :: rest, st, basePath, keys =>
      let keys1 := keys.erase field
      match sv with
      | .falsy => launchLoop rest st basePath keys1
      | .chain cs =>
          let out := validate cs st (basePath ++ field) field (objGet st field)
          match launchLoop rest out.2 basePath keys1 with
          | .ok (vs, st2, ks) => .ok (out.1 :: vs, st2, ks)
          | .error e => .error e
      | .other => .error "Not implemented"

/-- The synchronous phase of `_validateObject` (src/index.ts lines
369-407): snapshot `Object.keys(ctx.current)`, launch every field's
chain, then — when `config.trimBody` is set and unmatched keys remain —
delete every leftover key from the object.  All of this happens before
the aggregation promise receives any settlement. -/
def validateObjectSync (schema : Schema) (obj : JSObject) (trimBody : Bool) :
    Except String (List Settled × JSObject) :=
  match launchLoop schema obj "" (objKeys obj) with
  | .ok (vs, st, leftover) =>
      .ok (vs, if trimBody && !leftover.isEmpty then leftover.foldl objDelete st else st)
  | .error e => .error e

/-- The aggregate result `_validateObject` resolves with. -/
structure ValidationResult where
  success : Bool
  errors : Option (List (String × ValError))
deriving Repr, DecidableEq

/-- How the orchestrator's promise settles: resolved with a
`ValidationResult`, or rejected with a chain's rejection value. -/
inductive RunSettle where
  | resolved (r : ValidationResult)
  | rejected (msg : String)
deriving Repr, DecidableEq

/-- The JS assignment `errors[e.field] = e`: overwrite an existing key
in place, otherwise append. -/
def errInsert : List (String × ValError) → ValError → List (String × ValError)
  | [], e => [(e.field, e)]
  | (k, v) :: rest, e =>
      if k = e.field then (k, e) :: rest else (k, v) :: errInsert rest e

/-- The result built once the counter reaches the number of chains
(src/index.ts lines 423-434): success with no `errors` key when the
map is empty, else failure with the full map. -/
def mkResult (errs : List (String × ValError)) : ValidationResult :=
  if errs.isEmpty then ⟨true, none⟩ else ⟨false, some errs⟩

/-- The aggregation callbacks of `_validateObject` (src/index.ts lines
409-437), run over the chain settlements in their delivery order: a
rejection calls `rej` and settles the run; a resolution bumps the
counter, records a non-`true` value in the error map, and resolves the
run once the counter reaches `l`.  Returns the run's first settlement,
or `none` when the deliveries never settle it. -/
def aggGo (l : Nat) : List Settled → Nat → List (String × ValError) →
    Option RunSettle
  | [], _, _ => none
  | d :: ds, i, errs =>
      match d with
      | .rejected e => some (.rejected e)
      | .resTrue =>
          if l ≤ i + 1 then some (.resolved (mkResult errs))
          else aggGo l ds (i + 1) errs
      | .resErr e =>
          let errs1 := errInsert errs e
          if l ≤ i + 1 then some (.resolved (mkResult errs1))
          else aggGo l ds (i + 1) errs1

/-- The aggregation promise of `_validateObject` for launched
settlements `vs`, after the deliveries `ds` have arrived (each chain's
settlement is delivered exactly once, in an arbitrary order). -/
def aggregate (vs ds : List Settled) : Option RunSettle :=
  aggGo vs.length ds 0 []

/-- The whole `_validateObject` run: the synchronous phase, then the
aggregation under delivery order `ds`. -/
def validateObject (schema : Schema) (obj : JSObject) (trimBody : Bool)
    (ds : List Settled) : Except String (Option RunSettle × JSObject) :=
  match validateObjectSync schema obj trimBody with
  | .ok (vs, st) => .ok (aggregate vs ds, st)
  | .error e => .error e

/-- The validation errors among a list of settlements. -/
def failErrs (vs : List Settled) : List ValError :=
  vs.filterMap fun d =>
    match d with
    | .resErr e => some e
    | _ => none

/-- The error map accumulated by the aggregation callbacks over a list
of delivered settlements. -/
def collectErrs (errs : List (String × ValError)) (ds : List Settled) :
    List (String × ValError) :=
  ds.foldl
    (fun m d =>
      match d with
      | .resErr e => errInsert m e
      | _ => m)
    errs

/-! ## Supporting lemmas: object state -/

theorem objGet_objSet_self (o : JSObject) (k : String) (v : JSValue) :
    objGet (objSet o k v) k = v := by
  induction o with
  | nil => simp [objGet, objSet, List.lookup]
  | cons kv rest ih =>
      obtain ⟨k1, v1⟩ := kv
      by_cases h : k1 = k
      · subst h
        simp [objGet, objSet, List.lookup]
      · simp only [objSet, if_neg h]
        simpa [objGet, List.lookup, BEq.comm, h, beq_false_of_ne (Ne.symm h)] using ih

theorem mem_objKeys_objSet (o : JSObject) (k : String) (v : JSValue) (a : String) :
    a ∈ objKeys (objSet o k v) ↔ a ∈ objKeys o ∨ a = k := by
  induction o with
  | nil => simp [objKeys, objSet]
  | cons kv rest ih =>
      obtain ⟨k1, v1⟩ := kv
      simp only [objSet]
      split
      · rename_i h
        subst h
        simp only [objKeys, List.map_cons, List.mem_cons]
        tauto
      · rename_i h
        simp only [objKeys, List.map_cons, List.mem_cons] at ih ⊢
        tauto

theorem mem_objKeys_objDelete (o : JSObject) (k : String) (a : String) :
    a ∈ objKeys (objDelete o k) ↔ a ∈ objKeys o ∧ a ≠ k := by
  simp only [objKeys, objDelete, List.mem_map, List.mem_filter]
  constructor
  · rintro ⟨kv, ⟨hm, hk⟩, rfl⟩
    exact ⟨⟨kv, hm, rfl⟩, by simpa using hk⟩
  · rintro ⟨⟨kv, hm, rfl⟩, hk⟩
    exact ⟨kv, ⟨hm, by simpa using hk⟩, rfl⟩

theorem mem_objKeys_foldl_objDelete (ks : List String) (o : JSObject) (a : String) :
    a ∈ objKeys (ks.foldl objDelete o) ↔ a ∈ objKeys o ∧ a ∉ ks := by
  induction ks generalizing o with
  | nil => simp
  | cons k rest ih =>
      simp only [List.foldl_cons, ih, mem_objKeys_objDelete, List.mem_cons]
      constructor
      · rintro ⟨⟨hm, hne⟩, hr⟩
        exact ⟨hm, by rintro (rfl | hc) <;> simp_all⟩
      · rintro ⟨hm, hr⟩
        exact ⟨⟨hm, fun hc => hr (.inl hc)⟩, fun hc => hr (.inr hc)⟩

/-! ## Supporting lemmas: chain runs and the launch loop -/

/-- The object state a synchronous chain pass ends in. -/
def StepOut.state : StepOut → JSObject
  | .ret _ st => st
  | .thrown _ st => st

theorem runChecks_keys_mono (cs : List Check) (st : JSObject) (p f a : String)
    (h : a ∈ objKeys st) : a ∈ objKeys (runChecks cs st p f).state := by
  induction cs generalizing st with
  | nil => simpa [runChecks, StepOut.state] using h
  | cons c rest ih =>
      simp only [runChecks]
      cases hc : c ⟨st, st, p⟩ f (objGet st f) with
      | ret r => simpa [StepOut.state] using h
      | throwErr e => simpa [StepOut.state] using h
      | proceed w =>
          cases w with
          | none => exact ih st h
          | some v =>
              exact ih (objSet st f v) ((mem_objKeys_objSet st f v a).mpr (.inl h))

theorem runChecks_keys_sub (cs : List Check) (st : JSObject) (p f a : String)
    (h : a ∈ objKeys (runChecks cs st p f).state) : a ∈ objKeys st ∨ a = f := by
  induction cs generalizing st with
  | nil => exact .inl (by simpa [runChecks, StepOut.state] using h)
  | cons c rest ih =>
      simp only [runChecks] at h
      cases hc : c ⟨st, st, p⟩ f (objGet st f) with
      | ret r => rw [hc] at h; exact .inl (by simpa [StepOut.state] using h)
      | throwErr e => rw [hc] at h; exact .inl (by simpa [StepOut.state] using h)
      | proceed w =>
          rw [hc] at h
          cases w with
          | none => exact ih st h
          | some v =>
              rcases ih (objSet st f v) h with hm | hm
              · rcases (mem_objKeys_objSet st f v a).mp hm with hm2 | hm2
                · exact .inl hm2
                · exact .inr hm2
              · exact .inr hm

theorem validate_snd (cs : List Check) (st : JSObject) (p f : String)
    (v : JSValue) (h : cs ≠ []) :
    (validate cs st p f v).2 = (runChecks cs st p f).state := by
  cases cs with
  | nil => exact absurd rfl h
  | cons c rest =>
      simp only [validate]
      cases hr : runChecks (c :: rest) st p f with
      | thrown e st1 => simp [StepOut.state]
      | ret r st1 =>
          cases hv : valResultToPromise r f <;> simp [StepOut.state, hv]

theorem validate_keys_mono (cs : List Check) (st : JSObject) (p f : String)
    (v : JSValue) (a : String) (h : a ∈ objKeys st) :
    a ∈ objKeys (validate cs st p f v).2 := by
  cases cs with
  | nil => simpa [validate] using h
  | cons c rest =>
      rw [validate_snd (c :: rest) st p f v (by simp)]
      exact runChecks_keys_mono (c :: rest) st p f a h

theorem validate_keys_sub (cs : List Check) (st : JSObject) (p f : String)
    (v : JSValue) (a : String) (h : a ∈ objKeys (validate cs st p f v).2) :
    a ∈ objKeys st ∨ a = f := by
  cases cs with
  | nil => exact .inl (by simpa [validate] using h)
  | cons c rest =>
      rw [validate_snd (c :: rest) st p f v (by simp)] at h
      exact runChecks_keys_sub (c :: rest) st p f a h

/-- The pending-key list after the launch loop's per-field splices. -/
def schemaErase (schema : Schema) (keys : List String) : List String :=
  schema.foldl (fun acc e => acc.erase e.1) keys

theorem launchLoop_nil_ok {st : JSObject} {bp : String} {keys : List String}
    {vs : List Settled} {st2 : JSObject} {ks : List String}
    (hok : launchLoop [] st bp keys = .ok (vs, st2, ks)) :
    vs = [] ∧ st2 = st ∧ ks = keys := by
  simp only [launchLoop] at hok
  injection hok with h
  injection h with h1 h2
  injection h2 with h3 h4
  exact ⟨h1.symm, h3.symm, h4.symm⟩

theorem launchLoop_falsy_ok {field : String} {rest : Schema} {st : JSObject}
    {bp : String} {keys : List String} :
    launchLoop ((field, SchemaVal.falsy) :: rest) st bp keys
      = launchLoop rest st bp (keys.erase field) := rfl

theorem launchLoop_chain_ok {field : String} {cs : List Check} {rest : Schema}
    {st : JSObject} {bp : String} {keys : List String} {vs : List Settled}
    {st2 : JSObject} {ks : List String}
    (hok : launchLoop ((field, SchemaVal.chain cs) :: rest) st bp keys
      = .ok (vs, st2, ks)) :
    ∃ vs1, vs = (validate cs st (bp ++ field) field (objGet st field)).1 :: vs1 ∧
      launchLoop rest (validate cs st (bp ++ field) field (objGet st field)).2 bp
        (keys.erase field) = .ok (vs1, st2, ks) := by
  simp only [launchLoop] at hok
  cases hrec : launchLoop rest
      (validate cs st (bp ++ field) field (objGet st field)).2 bp
      (keys.erase field) with
  | ok out =>
      obtain ⟨vs1, st3, ks1⟩ := out
      rw [hrec] at hok
      injection hok with h
      injection h with h1 h2
      injection h2 with h3 h4
      exact ⟨vs1, h1.symm, by rw [h3, h4]⟩
  | error e => rw [hrec] at hok; cases hok

theorem launchLoop_leftover {schema : Schema} {st : JSObject} {bp : String}
    {keys : List String} {vs : List Settled} {st2 : JSObject} {ks : List String}
    (hok : launchLoop schema st bp keys = .ok (vs, st2, ks)) :
    ks = schemaErase schema keys := by
  induction schema generalizing st keys vs st2 ks with
  | nil =>
      obtain ⟨-, -, rfl⟩ := launchLoop_nil_ok hok
      simp [schemaErase]
  | cons ent rest ih =>
      obtain ⟨field, sv⟩ := ent
      cases sv with
      | falsy =>
          rw [launchLoop_falsy_ok] at hok
          exact ih hok
      | chain cs =>
          obtain ⟨vs1, -, hrec⟩ := launchLoop_chain_ok hok
          exact ih hrec
      | other => simp [launchLoop] at hok

theorem launchLoop_keys_mono {schema : Schema} {st : JSObject} {bp : String}
    {keys : List String} {vs : List Settled} {st2 : JSObject} {ks : List String}
    (hok : launchLoop schema st bp keys = .ok (vs, st2, ks)) (a : String)
    (h : a ∈ objKeys st) : a ∈ objKeys st2 := by
  induction schema generalizing st keys vs st2 ks with
  | nil =>
      obtain ⟨-, rfl, -⟩ := launchLoop_nil_ok hok
      exact h
  | cons ent rest ih =>
      obtain ⟨field, sv⟩ := ent
      cases sv with
      | falsy =>
          rw [launchLoop_falsy_ok] at hok
          exact ih hok h
      | chain cs =>
          obtain ⟨vs1, -, hrec⟩ := launchLoop_chain_ok hok
          exact ih hrec
            (validate_keys_mono cs st (bp ++ field) field (objGet st field) a h)
      | other => simp [launchLoop] at hok

theorem launchLoop_keys_sub {schema : Schema} {st : JSObject} {bp : String}
    {keys : List String} {vs : List Settled} {st2 : JSObject} {ks : List String}
    (hok : launchLoop schema st bp keys = .ok (vs, st2, ks)) (a : String)
    (h : a ∈ objKeys st2) : a ∈ objKeys st ∨ a ∈ schema.map Prod.fst := by
  induction schema generalizing st keys vs st2 ks with
  | nil =>
      obtain ⟨-, rfl, -⟩ := launchLoop_nil_ok hok
      exact .inl h
  | cons ent rest ih =>
      obtain ⟨field, sv⟩ := ent
      cases sv with
      | falsy =>
          rw [launchLoop_falsy_ok] at hok
          rcases ih hok h with hm | hm
          · exact .inl hm
          · exact .inr (by simpa using Or.inr hm)
      | chain cs =>
          obtain ⟨vs1, -, hrec⟩ := launchLoop_chain_ok hok
          rcases ih hrec h with hm | hm
          · rcases validate_keys_sub cs st (bp ++ field) field
                (objGet st field) a hm with hm2 | hm2
            · exact .inl hm2
            · exact .inr (by simpa using Or.inl hm2)
          · exact .inr (by simpa using Or.inr hm)
      | other => simp [launchLoop] at hok

theorem mem_schemaErase {schema : Schema} {keys : List String}
    (hnd : keys.Nodup) (k : String) :
    k ∈ schemaErase schema keys ↔ k ∈ keys ∧ k ∉ schema.map Prod.fst := by
  induction schema generalizing keys with
  | nil => simp [schemaErase]
  | cons ent rest ih =>
      obtain ⟨f, sv⟩ := ent
      have hstep : schemaErase ((f, sv) :: rest) keys
          = schemaErase rest (keys.erase f) := rfl
      rw [hstep, ih (hnd.erase f), hnd.mem_erase_iff]
      simp only [List.map_cons, List.mem_cons]
      tauto

/-! ## Supporting lemmas: error-map accumulation and aggregation -/

theorem errInsert_lookup (m : List (String × ValError)) (e : ValError) (f : String) :
    (errInsert m e).lookup f = if f = e.field then some e else m.lookup f := by
  induction m with
  | nil =>
      by_cases h : f = e.field
      · simp [errInsert, List.lookup, h]
      · simp [errInsert, List.lookup, h, beq_false_of_ne h]
  | cons kv rest ih =>
      obtain ⟨k, v⟩ := kv
      by_cases hk : k = e.field
      · subst hk
        by_cases hf : f = e.field
        · simp [errInsert, List.lookup, hf]
        · simp [errInsert, List.lookup, hf, beq_false_of_ne hf]
      · by_cases hf : f = k
        · subst hf
          simp [errInsert, List.lookup, hk]
        · simp [errInsert, List.lookup, hk, hf, beq_false_of_ne hf, ih]

theorem errInsert_ne_nil (m : List (String × ValError)) (e : ValError) :
    errInsert m e ≠ [] := by
  cases m with
  | nil => simp [errInsert]
  | cons kv rest =>
      obtain ⟨k, v⟩ := kv
      by_cases hk : k = e.field <;> simp [errInsert, hk]

theorem errInsert_keys (m : List (String × ValError)) (e : ValError) :
    (errInsert m e).map Prod.fst =
      if e.field ∈ m.map Prod.fst then m.map Prod.fst
      else m.map Prod.fst ++ [e.field] := by
  induction m with
  | nil => simp [errInsert]
  | cons kv rest ih =>
      obtain ⟨k, v⟩ := kv
      by_cases hk : k = e.field
      · subst hk
        simp [errInsert]
      · by_cases hm : e.field ∈ rest.map Prod.fst <;>
          simp [errInsert, hk, ih, hm, Ne.symm hk]

theorem errInsert_keys_nodup (m : List (String × ValError)) (e : ValError)
    (h : (m.map Prod.fst).Nodup) : ((errInsert m e).map Prod.fst).Nodup := by
  rw [errInsert_keys]
  by_cases hm : e.field ∈ m.map Prod.fst
  · simpa [hm] using h
  · simp only [hm, if_neg, ite_false]
    simp [List.nodup_append, h, hm]

theorem failErrs_cons_resTrue (rest : List Settled) :
    failErrs (.resTrue :: rest) = failErrs rest := rfl

theorem failErrs_cons_rejected (e : String) (rest : List Settled) :
    failErrs (.rejected e :: rest) = failErrs rest := rfl

theorem failErrs_cons_resErr (e : ValError) (rest : List Settled) :
    failErrs (.resErr e :: rest) = e :: failErrs rest := rfl

theorem collectErrs_cons (errs : List (String × ValError)) (d : Settled)
    (ds : List Settled) :
    collectErrs errs (d :: ds) =
      collectErrs
        (match d with
          | .resErr e => errInsert errs e
          | _ => errs) ds := rfl

theorem collectErrs_lookup_isSome (ds : List Settled)
    (errs : List (String × ValError)) (f : String) :
    ((collectErrs errs ds).lookup f).isSome
      ↔ (errs.lookup f).isSome ∨ f ∈ (failErrs ds).map ValError.field := by
  induction ds generalizing errs with
  | nil => simp [collectErrs, failErrs]
  | cons d rest ih =>
      cases d with
      | resTrue =>
          rw [collectErrs_cons, failErrs_cons_resTrue]
          exact ih errs
      | rejected e =>
          rw [collectErrs_cons, failErrs_cons_rejected]
          exact ih errs
      | resErr e =>
          rw [collectErrs_cons, failErrs_cons_resErr]
          rw [show (match Settled.resErr e with
              | Settled.resErr e1 => errInsert errs e1
              | _ => errs) = errInsert errs e from rfl] at *
          rw [ih (errInsert errs e), errInsert_lookup]
          by_cases hf : f = e.field
          · simp [hf]
          · simp [hf]

theorem collectErrs_lookup_eq (ds : List Settled)
    (errs : List (String × ValError)) (f : String) (e : ValError)
    (h : (collectErrs errs ds).lookup f = some e) :
    errs.lookup f = some e ∨ (e ∈ failErrs ds ∧ e.field = f) := by
  induction ds generalizing errs with
  | nil => exact .inl (by simpa [collectErrs] using h)
  | cons d rest ih =>
      cases d with
      | resTrue =>
          rw [collectErrs_cons] at h
          rcases ih errs h with h1 | h1
          · exact .inl h1
          · exact .inr ⟨by rw [failErrs_cons_resTrue]; exact h1.1, h1.2⟩
      | rejected e1 =>
          rw [collectErrs_cons] at h
          rcases ih errs h with h1 | h1
          · exact .inl h1
          · exact .inr ⟨by rw [failErrs_cons_rejected]; exact h1.1, h1.2⟩
      | resErr e1 =>
          rw [collectErrs_cons] at h
          rcases ih (errInsert errs e1) h with h1 | h1
          · rw [errInsert_lookup] at h1
            by_cases hf : f = e1.field
            · rw [if_pos hf] at h1
              injection h1 with h2
              exact .inr ⟨by rw [failErrs_cons_resErr, ← h2]; exact List.mem_cons_self _ _,
                by rw [← h2, hf]⟩
            · rw [if_neg hf] at h1
              exact .inl h1
          · exact .inr ⟨by rw [failErrs_cons_resErr]; exact List.mem_cons_of_mem _ h1.1, h1.2⟩

theorem collectErrs_keys_nodup (ds : List Settled)
    (errs : List (String × ValError)) (h : (errs.map Prod.fst).Nodup) :
    ((collectErrs errs ds).map Prod.fst).Nodup := by
  induction ds generalizing errs with
  | nil => simpa [collectErrs] using h
  | cons d rest ih =>
      cases d with
      | resTrue => rw [collectErrs_cons]; exact ih errs h
      | rejected e => rw [collectErrs_cons]; exact ih errs h
      | resErr e =>
          rw [collectErrs_cons]
          exact ih (errInsert errs e) (errInsert_keys_nodup errs e h)

theorem collectErrs_no_fail (ds : List Settled) (errs : List (String × ValError))
    (h : failErrs ds = []) : collectErrs errs ds = errs := by
  induction ds generalizing errs with
  | nil => rfl
  | cons d rest ih =>
      cases d with
      | resTrue => rw [collectErrs_cons]; exact ih errs (by rwa [failErrs_cons_resTrue] at h)
      | rejected e => rw [collectErrs_cons]; exact ih errs (by rwa [failErrs_cons_rejected] at h)
      | resErr e => rw [failErrs_cons_resErr] at h; cases h

theorem collectErrs_ne_nil (ds : List Settled) (errs : List (String × ValError))
    (h : errs ≠ []) : collectErrs errs ds ≠ [] := by
  induction ds generalizing errs with
  | nil => exact h
  | cons d rest ih =>
      cases d with
      | resTrue => rw [collectErrs_cons]; exact ih errs h
      | rejected e => rw [collectErrs_cons]; exact ih errs h
      | resErr e => rw [collectErrs_cons]; exact ih (errInsert errs e) (errInsert_ne_nil errs e)

theorem collectErrs_of_fail (ds : List Settled)
    (errs : List (String × ValError)) (h : failErrs ds ≠ []) :
    collectErrs errs ds ≠ [] := by
  induction ds generalizing errs with
  | nil => exact absurd rfl h
  | cons d rest ih =>
      cases d with
      | resTrue => rw [collectErrs_cons]; exact ih errs (by rwa [failErrs_cons_resTrue] at h)
      | rejected e => rw [collectErrs_cons]; exact ih errs (by rwa [failErrs_cons_rejected] at h)
      | resErr e =>
          rw [collectErrs_cons]
          exact collectErrs_ne_nil rest (errInsert errs e) (errInsert_ne_nil errs e)

theorem aggGo_none (l : Nat) (ds : List Settled) (i : Nat)
    (errs : List (String × ValError))
    (hnr : ∀ d ∈ ds, d.isRejected = false) (h : i + ds.length < l) :
    aggGo l ds i errs = none := by
  induction ds generalizing i errs with
  | nil => simp [aggGo]
  | cons d rest ih =>
      cases d with
      | rejected e =>
          have := hnr (.rejected e) (by simp)
          simp [Settled.isRejected] at this
      | resTrue =>
          have hlt : ¬ l ≤ i + 1 := by
            simp only [List.length_cons, List.length_nil] at h
            omega
          simp only [aggGo, if_neg hlt]
          exact ih (i + 1) errs (fun d hd => hnr d (List.mem_cons_of_mem _ hd))
            (by simp only [List.length_cons, List.length_nil] at h ⊢; omega)
      | resErr e =>
          have hlt : ¬ l ≤ i + 1 := by
            simp only [List.length_cons, List.length_nil] at h
            omega
          simp only [aggGo, if_neg hlt]
          exact ih (i + 1) (errInsert errs e)
            (fun d hd => hnr d (List.mem_cons_of_mem _ hd))
            (by simp only [List.length_cons, List.length_nil] at h ⊢; omega)

theorem aggGo_last (l : Nat) (ds : List Settled) (i : Nat)
    (errs : List (String × ValError))
    (hnr : ∀ d ∈ ds, d.isRejected = false) (h : i + ds.length = l)
    (hne : ds ≠ []) :
    aggGo l ds i errs = some (.resolved (mkResult (collectErrs errs ds))) := by
  induction ds generalizing i errs with
  | nil => exact absurd rfl hne
  | cons d rest ih =>
      cases rest with
      | nil =>
          have hl : l ≤ i + 1 := by simp only [List.length_cons, List.length_nil] at h; omega
          cases d with
          | rejected e =>
              have := hnr (.rejected e) (by simp)
              simp [Settled.isRejected] at this
          | resTrue => simp [aggGo, hl, collectErrs]
          | resErr e => simp [aggGo, hl, collectErrs]
      | cons d2 rest2 =>
          have hlt : ¬ l ≤ i + 1 := by
            simp only [List.length_cons, List.length_nil] at h
            omega
          cases d with
          | rejected e =>
              have := hnr (.rejected e) (by simp)
              simp [Settled.isRejected] at this
          | resTrue =>
              simp only [aggGo, if_neg hlt]
              rw [collectErrs_cons]
              exact ih (i + 1) errs (fun d hd => hnr d (List.mem_cons_of_mem _ hd))
                (by simp only [List.length_cons, List.length_nil] at h ⊢; omega) (by simp)
          | resErr e =>
              simp only [aggGo, if_neg hlt]
              rw [collectErrs_cons]
              exact ih (i + 1) (errInsert errs e)
                (fun d hd => hnr d (List.mem_cons_of_mem _ hd))
                (by simp only [List.length_cons, List.length_nil] at h ⊢; omega) (by simp)

theorem aggGo_rejected (l : Nat) (ds : List Settled) (i : Nat)
    (errs : List (String × ValError))
    (hb : i + ds.length ≤ l) (hr : ∃ e, Settled.rejected e ∈ ds) :
    ∃ e, aggGo l ds i errs = some (.rejected e) ∧ Settled.rejected e ∈ ds := by
  induction ds generalizing i errs with
  | nil =>
      obtain ⟨e, he⟩ := hr
      simp at he
  | cons d rest ih =>
      cases d with
      | rejected e => exact ⟨e, by simp [aggGo], by simp⟩
      | resTrue =>
          obtain ⟨e, he⟩ := hr
          have hmem : Settled.rejected e ∈ rest := by
            rcases List.mem_cons.mp he with hc | hc
            · cases hc
            · exact hc
          have hrl : 1 ≤ rest.length :=
            List.length_pos.mpr (List.ne_nil_of_mem hmem)
          have hlt : ¬ l ≤ i + 1 := by
            simp only [List.length_cons, List.length_nil] at hb
            omega
          simp only [aggGo, if_neg hlt]
          obtain ⟨e2, h1, h2⟩ := ih (i + 1) errs
            (by simp only [List.length_cons, List.length_nil] at hb; omega) ⟨e, hmem⟩
          exact ⟨e2, h1, List.mem_cons_of_mem _ h2⟩
      | resErr e0 =>
          obtain ⟨e, he⟩ := hr
          have hmem : Settled.rejected e ∈ rest := by
            rcases List.mem_cons.mp he with hc | hc
            · cases hc
            · exact hc
          have hrl : 1 ≤ rest.length :=
            List.length_pos.mpr (List.ne_nil_of_mem hmem)
          have hlt : ¬ l ≤ i + 1 := by
            simp only [List.length_cons, List.length_nil] at hb
            omega
          simp only [aggGo, if_neg hlt]
          obtain ⟨e2, h1, h2⟩ := ih (i + 1) (errInsert errs e0)
            (by simp only [List.length_cons, List.length_nil] at hb; omega) ⟨e, hmem⟩
          exact ⟨e2, h1, List.mem_cons_of_mem _ h2⟩

/-! ## Further helper lemmas used by the claim theorems -/

theorem validate_of_thrown (cs : List Check) (st : JSObject) (p f : String)
    (v : JSValue) (e : String) (st1 : JSObject)
    (h : runChecks cs st p f = .thrown e st1) :
    validate cs st p f v = (.rejected e, st1) := by
  cases cs with
  | nil => simp [runChecks] at h
  | cons c rest => simp [validate, h]

theorem validate_of_ret_err (cs : List Check) (st : JSObject) (p f : String)
    (v : JSValue) (e : String) (st1 : JSObject)
    (h : runChecks cs st p f = .ret (.err e) st1) :
    validate cs st p f v = (.rejected e, st1) := by
  cases cs with
  | nil => simp [runChecks] at h
  | cons c rest => simp [validate, h, valResultToPromise]

theorem jsAbsent_iff (v : JSValue) : jsAbsent v = true ↔ v = .undefined ∨ v = .null := by
  cases v <;> simp [jsAbsent]

theorem isJsNull_iff (v : JSValue) : isJsNull v = true ↔ v = .null := by
  cases v <;> simp [isJsNull]

theorem sameAsCheck_eq (pathOpt : String) (msg : Option String) (ctx : Ctx)
    (f : String) (v : JSValue) :
    sameAsCheck pathOpt msg ctx f v =
      if jsAbsent v && isJsNull (sameAsTarget pathOpt ctx) then .proceed none
      else if jsStrictEq v (sameAsTarget pathOpt ctx) then .proceed none
      else .ret (.str (msgOr msg (ctx.path ++ " is not same as " ++ pathOpt))) := rfl

/-! ## Claim theorems -/

/-- C4: the result normalizer maps every raw Check return
deterministically — boolean `true` becomes the canonical Pass, boolean
`false` becomes a Fail bound to the field with an empty message, and a
string becomes a Fail bound to the field carrying that string as its
message. -/
theorem sv_C4_normalizer_mapping :
    ∀ field : String,
      valResultToPromise (.bool true) field = .promise .resTrue ∧
      valResultToPromise (.bool false) field = .promise (.resErr ⟨field, ""⟩) ∧
      ∀ s : String,
        valResultToPromise (.str s) field = .promise (.resErr ⟨field, s⟩) :=
  fun _ => ⟨rfl, rfl, fun _ => rfl⟩

/-- C5: the `required` check fails (returns a terminal Fail message)
exactly when the value is `null`, `undefined`, or the empty string, and
proceeds on every other value — in particular on `0`, `false` and
non-empty strings. -/
theorem sv_C5_required_iff :
    ∀ (msg : Option String) (ctx : Ctx) (field : String) (v : JSValue),
      ((∃ m, requiredCheck msg ctx field v = .ret (.str m)) ↔
        (v = .null ∨ v = .undefined ∨ v = .str "")) ∧
      ((requiredCheck msg ctx field v = .proceed none) ↔
        ¬(v = .null ∨ v = .undefined ∨ v = .str "")) := by
  intro msg ctx field v
  cases v with
  | null => simp [requiredCheck]
  | undefined => simp [requiredCheck]
  | str s =>
      by_cases hs : s = "" <;> simp [requiredCheck, hs]
  | bool b => simp [requiredCheck]
  | num n => simp [requiredCheck]
  | obj fs => simp [requiredCheck]

/-- C3: `Validators.validate` never throws synchronously — a chain with
zero Checks resolves to pass with the object untouched, and a
synchronous exception thrown by any Check surfaces only as the chain
promise's rejected outcome. -/
theorem sv_C3_validate_never_throws :
    (∀ (st : JSObject) (p f : String) (v : JSValue),
      validate [] st p f v = (.resTrue, st)) ∧
    (∀ (cs : List Check) (st : JSObject) (p f : String) (v : JSValue)
        (e : String) (st1 : JSObject),
      runChecks cs st p f = .thrown e st1 →
      validate cs st p f v = (.rejected e, st1)) :=
  ⟨fun _ _ _ _ => rfl, validate_of_thrown⟩

/-- Witness for C3 at a concrete empty chain and a concrete throwing
check. -/
theorem sv_C3_witness :
    validate [] [] "p" "f" .undefined = (.resTrue, []) ∧
    validate [throwingCheck "boom"] [] "p" "f" .undefined = (.rejected "boom", []) :=
  ⟨sv_C3_validate_never_throws.1 [] "p" "f" .undefined,
    sv_C3_validate_never_throws.2 [throwingCheck "boom"] [] "p" "f" .undefined
      "boom" [] rfl⟩

/-- C2: a Check that throws, or whose raw return is an `Error`
instance, rejects the chain's promise with that error, and any rejected
chain makes the orchestrator's aggregation promise reject (under every
delivery order) instead of folding the error into the per-field error
map of a resolved `ValidationResult`. -/
theorem sv_C2_error_rejects_run :
    (∀ (cs : List Check) (st : JSObject) (p f : String) (v : JSValue)
        (e : String) (st1 : JSObject),
      runChecks cs st p f = .thrown e st1 →
      validate cs st p f v = (.rejected e, st1)) ∧
    (∀ (cs : List Check) (st : JSObject) (p f : String) (v : JSValue)
        (e : String) (st1 : JSObject),
      runChecks cs st p f = .ret (.err e) st1 →
      validate cs st p f v = (.rejected e, st1)) ∧
    (∀ vs ds : List Settled, List.Perm ds vs →
      (∃ e, Settled.rejected e ∈ vs) →
      ∃ e, aggregate vs ds = some (.rejected e) ∧ Settled.rejected e ∈ vs) := by
  refine ⟨validate_of_thrown, validate_of_ret_err, ?_⟩
  intro vs ds hperm ⟨e, he⟩
  have hmem : Settled.rejected e ∈ ds := hperm.mem_iff.mpr he
  obtain ⟨e2, h1, h2⟩ := aggGo_rejected vs.length ds 0 []
    (by rw [hperm.length_eq]; omega) ⟨e, hmem⟩
  exact ⟨e2, h1, hperm.mem_iff.mp h2⟩

/-- Witness for C2 at a concrete error-returning check and a concrete
pair of settlements containing a rejection. -/
theorem sv_C2_witness :
    validate [errorReturningCheck "db down"] [] "p" "f" .undefined
      = (.rejected "db down", []) ∧
    (∃ e, aggregate [Settled.resTrue, Settled.rejected "db down"]
          [Settled.resTrue, Settled.rejected "db down"]
        = some (.rejected e) ∧
      Settled.rejected e ∈ [Settled.resTrue, Settled.rejected "db down"]) :=
  ⟨sv_C2_error_rejects_run.2.1 [errorReturningCheck "db down"] [] "p" "f"
      .undefined "db down" [] rfl,
    sv_C2_error_rejects_run.2.2 _ _ (List.Perm.refl _) ⟨"db down", by simp⟩⟩

/-- C6: every Check receives the value of `ctx.current[field]` read at
its own invocation, so a Check that rewrites its field hands the new
value to every later Check of the same chain; concretely,
`isString({trim:true})` on `"  ab  "` writes `"ab"` back, the chain
passes, and any later Check observes `"ab"`. -/
theorem sv_C6_value_read_at_invocation :
    (∀ (w : JSValue) (c : Check) (st : JSObject) (p f : String),
      runChecks [setFieldCheck w, c] st p f = runChecks [c] (objSet st f w) p f ∧
      objGet (objSet st f w) f = w) ∧
    (∀ (st : JSObject) (p f : String) (v : JSValue),
      objGet st f = .str "  ab  " →
      validate [isStringCheck true none none] st p f v
          = (.resTrue, objSet st f (.str "ab")) ∧
      objGet (objSet st f (.str "ab")) f = .str "ab" ∧
      (∀ c : Check, runChecks [isStringCheck true none none, c] st p f
          = runChecks [c] (objSet st f (.str "ab")) p f)) := by
  constructor
  · intro w c st p f
    exact ⟨rfl, objGet_objSet_self st f w⟩
  · intro st p f v h
    have htrim : jsTrim "  ab  " = "ab" := by decide
    refine ⟨?_, objGet_objSet_self st f (.str "ab"), ?_⟩
    · simp [validate, runChecks, isStringCheck, valResultToPromise, h, htrim]
    · intro c
      simp [runChecks, isStringCheck, h, htrim]

/-- Witness for C6 at a concrete object: after the trimming chain runs
on `{f: "  ab  "}`, the chain passes and the object holds `{f: "ab"}`. -/
theorem sv_C6_witness :
    validate [isStringCheck true none none] [("f", .str "  ab  ")] "f" "f" .undefined
        = (.resTrue, [("f", .str "ab")]) ∧
    objGet [("f", JSValue.str "ab")] "f" = .str "ab" := by
  have h := sv_C6_value_read_at_invocation.2 [("f", .str "  ab  ")] "f" "f" .undefined rfl
  exact ⟨by rw [h.1]; rfl, by rw [show objSet [("f", JSValue.str "  ab  ")] "f"
    (.str "ab") = [("f", JSValue.str "ab")] from rfl] at h; exact h.2.1⟩

theorem passwordCheck_default_str (msg : Option String) (ctx : Ctx) (f : String)
    (s : String) :
    passwordCheck none none none msg ctx f (.str s) =
      if (s.length : Int) < 8 || (s.length : Int) > 32 then
        .ret (.str (msgOr msg (ctx.path ++ " is invalid.")))
      else if s.toList.any Char.isUpper && (s.toList.any Char.isLower &&
          (s.toList.any Char.isDigit &&
            (s.toList.any (fun c => specialChars.contains c) && true))) then
        .proceed none
      else .ret (.str (msgOr msg (ctx.path ++ " is invalid."))) := rfl

/-- C7: with the default options (all four character classes required,
bounds 8 and 32), the `password` check proceeds exactly on strings of
length in `[8, 32]` containing an upper-case letter, a lower-case
letter, a digit and a special character; `"Aa1#abcd"` proceeds while
`"aaaaaaaa"` and `"Aa1#"` fail; and a non-keyword `req` entry compiles
to a caller-supplied literal pattern. -/
theorem sv_C7_password_default :
    (∀ (ctx : Ctx) (f : String) (v : JSValue) (msg : Option String),
      (passwordCheck none none none msg ctx f v = .proceed none ↔
        ∃ s, v = .str s ∧ 8 ≤ s.length ∧ s.length ≤ 32 ∧
          s.toList.any Char.isUpper = true ∧ s.toList.any Char.isLower = true ∧
          s.toList.any Char.isDigit = true ∧
          s.toList.any (fun c => specialChars.contains c) = true)) ∧
    (∀ (ctx : Ctx) (f : String) (msg : Option String),
      passwordCheck none none none msg ctx f (.str "Aa1#abcd") = .proceed none) ∧
    (∀ (ctx : Ctx) (f : String) (msg : Option String),
      passwordCheck none none none msg ctx f (.str "aaaaaaaa")
        = .ret (.str (msgOr msg (ctx.path ++ " is invalid.")))) ∧
    (∀ (ctx : Ctx) (f : String) (msg : Option String),
      passwordCheck none none none msg ctx f (.str "Aa1#")
        = .ret (.str (msgOr msg (ctx.path ++ " is invalid.")))) ∧
    (∀ r : String, r ∉ (["upper", "lower", "number", "special"] : List String) →
      compileReq [r] = [.custom r]) := by
  refine ⟨?_, fun ctx f msg => rfl, fun ctx f msg => rfl, fun ctx f msg => rfl, ?_⟩
  · intro ctx f v msg
    cases v with
    | str s =>
        rw [passwordCheck_default_str]
        by_cases h1 : ((s.length : Int) < 8 || (s.length : Int) > 32) = true
        · rw [if_pos h1]
          simp only [Bool.or_eq_true, decide_eq_true_eq] at h1
          constructor
          · intro h; exact absurd h (by simp)
          · rintro ⟨s1, hs, h8, h32, -⟩
            injection hs with hss
            subst hss
            omega
        · rw [if_neg h1]
          simp only [Bool.or_eq_true, decide_eq_true_eq, not_or, not_lt] at h1
          obtain ⟨h8, h32⟩ := h1
          by_cases h2 : (s.toList.any Char.isUpper && (s.toList.any Char.isLower &&
              (s.toList.any Char.isDigit &&
                (s.toList.any (fun c => specialChars.contains c) && true)))) = true
          · rw [if_pos h2]
            simp only [Bool.and_eq_true, and_true] at h2
            obtain ⟨hu, hl, hn, hsp⟩ := h2
            constructor
            · intro _
              exact ⟨s, rfl, by omega, by omega, hu, hl, hn, hsp⟩
            · intro _
              rfl
          · rw [if_neg h2]
            constructor
            · intro h; exact absurd h (by simp)
            · rintro ⟨s1, hs, -, -, hu, hl, hn, hsp⟩
              injection hs with hss
              subst hss
              exact absurd (by rw [hu, hl, hn, hsp]; rfl) h2
    | undefined => simp [passwordCheck]
    | null => simp [passwordCheck]
    | bool b => simp [passwordCheck]
    | num n => simp [passwordCheck]
    | obj fs => simp [passwordCheck]
  · intro r hr
    simp only [List.mem_cons, List.not_mem_nil, or_false, not_or] at hr
    obtain ⟨h1, h2, h3, h4⟩ := hr
    simp [compileReq, h1, h2, h3, h4]

/-- Witness for C7: instantiating the iff at `"Aa1#abcd"` and the
non-keyword compilation at `"xyz"`. -/
theorem sv_C7_witness :
    (passwordCheck none none none none ⟨[], [], "pw"⟩ "f" (.str "Aa1#abcd")
      = .proceed none) ∧
    compileReq ["xyz"] = [.custom "xyz"] :=
  ⟨(sv_C7_password_default.1 ⟨[], [], "pw"⟩ "f" (.str "Aa1#abcd") none).mpr
      ⟨"Aa1#abcd", rfl, by decide, by decide, by decide, by decide, by decide,
        by decide⟩,
    sv_C7_password_default.2.2.2.2 "xyz" (by decide)⟩

/-- C8: `sameAs` resolves its target by walking the slash-split path
from the root when the option starts with `$/` and from the current
object otherwise, a missing segment yielding `null`; it proceeds
exactly when the field value strictly equals the target or both are
absent, and otherwise fails with the "not same as" message; the
concrete repeat-password scenarios behave as the spec describes. -/
theorem sv_C8_sameAs_semantics :
    (∀ (pathOpt : String) (msg : Option String) (ctx : Ctx) (f : String)
        (v : JSValue),
      (sameAsCheck pathOpt msg ctx f v = .proceed none ↔
        (jsStrictEq v (sameAsTarget pathOpt ctx) = true ∨
          ((v = .undefined ∨ v = .null) ∧ sameAsTarget pathOpt ctx = .null))) ∧
      (sameAsCheck pathOpt msg ctx f v ≠ .proceed none →
        sameAsCheck pathOpt msg ctx f v =
          .ret (.str (msgOr msg (ctx.path ++ " is not same as " ++ pathOpt))))) ∧
    (sameAsCheck "$/password" none
        ⟨[("password", .str "Aa1#abcd")], [("password", .str "Aa1#abcd")],
          "repeatPassword"⟩
        "repeatPassword" (.str "Aa1#abcd") = .proceed none) ∧
    (sameAsCheck "$/password" none
        ⟨[("password", .str "other")], [("password", .str "other")],
          "repeatPassword"⟩
        "repeatPassword" (.str "Aa1#abcd")
      = .ret (.str "repeatPassword is not same as $/password")) ∧
    (sameAsCheck "$/password" none ⟨[], [], "repeatPassword"⟩
        "repeatPassword" .undefined = .proceed none) := by
  refine ⟨?_, rfl, rfl, rfl⟩
  intro pathOpt msg ctx f v
  rw [sameAsCheck_eq]
  split_ifs with hA hE
  · simp only [Bool.and_eq_true] at hA
    constructor
    · exact ⟨fun _ => .inr ⟨(jsAbsent_iff v).mp hA.1, (isJsNull_iff _).mp hA.2⟩,
        fun _ => rfl⟩
    · intro h
      exact absurd rfl h
  · exact ⟨⟨fun _ => .inl hE, fun _ => rfl⟩, fun h => absurd rfl h⟩
  · constructor
    · constructor
      · intro h
        exact absurd h (by simp)
      · rintro (h | ⟨hv, ht⟩)
        · exact absurd h hE
        · refine absurd ?_ hA
          rw [Bool.and_eq_true]
          exact ⟨(jsAbsent_iff v).mpr hv, (isJsNull_iff _).mpr ht⟩
    · intro _
      rfl

/-- Witness for C8: the iff and the failure shape instantiated at the
concrete repeat-password scenarios. -/
theorem sv_C8_witness :
    sameAsCheck "$/password" none
      ⟨[("password", .str "Aa1#abcd")], [("password", .str "Aa1#abcd")],
        "repeatPassword"⟩
      "repeatPassword" (.str "Aa1#abcd") = .proceed none ∧
    sameAsCheck "$/password" none
      ⟨[("password", .str "other")], [("password", .str "other")],
        "repeatPassword"⟩
      "repeatPassword" (.str "Aa1#abcd")
      = .ret (.str "repeatPassword is not same as $/password") :=
  ⟨((sv_C8_sameAs_semantics.1 "$/password" none
      ⟨[("password", .str "Aa1#abcd")], [("password", .str "Aa1#abcd")],
        "repeatPassword"⟩
      "repeatPassword" (.str "Aa1#abcd")).1).mpr (.inl rfl),
    (sv_C8_sameAs_semantics.1 "$/password" none
      ⟨[("password", .str "other")], [("password", .str "other")],
        "repeatPassword"⟩
      "repeatPassword" (.str "Aa1#abcd")).2
      (fun h => by
        rw [show sameAsCheck "$/password" none
            ⟨[("password", JSValue.str "other")], [("password", JSValue.str "other")],
              "repeatPassword"⟩
            "repeatPassword" (.str "Aa1#abcd")
            = CheckStep.ret (.str "repeatPassword is not same as $/password")
          from rfl] at h
        cases h)⟩

/-- After a successful synchronous phase with trimming, every input key
not declared in the schema is gone from the object. -/
theorem sync_unknown_deleted (schema : Schema) (obj : JSObject)
    (vs : List Settled) (st2 : JSObject) (hnd : (objKeys obj).Nodup)
    (hok : validateObjectSync schema obj true = .ok (vs, st2)) :
    ∀ k, k ∈ objKeys obj → k ∉ schema.map Prod.fst → k ∉ objKeys st2 := by
  simp only [validateObjectSync] at hok
  cases hl : launchLoop schema obj "" (objKeys obj) with
  | error e => rw [hl] at hok; cases hok
  | ok out =>
      obtain ⟨vs1, st1, leftover⟩ := out
      rw [hl] at hok
      injection hok with h
      injection h with h1 h2
      intro k hobj hnotf
      have hkl : k ∈ leftover := by
        rw [launchLoop_leftover hl]
        exact (mem_schemaErase hnd k).mpr ⟨hobj, hnotf⟩
      have hne : leftover ≠ [] := List.ne_nil_of_mem hkl
      have hcond : (true && !leftover.isEmpty) = true := by
        cases leftover with
        | nil => exact absurd rfl hne
        | cons a as => rfl
      rw [← h2, if_pos hcond, mem_objKeys_foldl_objDelete]
      rintro ⟨-, hk2⟩
      exact hk2 hkl

/-- After a successful synchronous phase with trimming, every key
declared in the schema and present on the input object is still
present on the object. -/
theorem sync_declared_kept (schema : Schema) (obj : JSObject)
    (vs : List Settled) (st2 : JSObject) (hnd : (objKeys obj).Nodup)
    (hok : validateObjectSync schema obj true = .ok (vs, st2)) :
    ∀ k, k ∈ schema.map Prod.fst → k ∈ objKeys obj → k ∈ objKeys st2 := by
  simp only [validateObjectSync] at hok
  cases hl : launchLoop schema obj "" (objKeys obj) with
  | error e => rw [hl] at hok; cases hok
  | ok out =>
      obtain ⟨vs1, st1, leftover⟩ := out
      rw [hl] at hok
      injection hok with h
      injection h with h1 h2
      intro k hf hobj
      have hst1 : k ∈ objKeys st1 := launchLoop_keys_mono hl k hobj
      have hknl : k ∉ leftover := by
        rw [launchLoop_leftover hl]
        intro hc
        exact ((mem_schemaErase hnd k).mp hc).2 hf
      rw [← h2]
      by_cases hcond : (true && !leftover.isEmpty) = true
      · rw [if_pos hcond, mem_objKeys_foldl_objDelete]
        exact ⟨hst1, hknl⟩
      · rw [if_neg hcond]
        exact hst1

/-- C9: with trimming enabled the orchestrator deletes from the object
every key not declared in the schema; keys declared in the schema are
never deleted, whatever their chains' outcomes; and the deletion is
part of the synchronous launch phase — the final object state is fixed
before any settlement is delivered, identically under every delivery
order. -/
theorem sv_C9_trim_unknown_keys :
    ∀ (schema : Schema) (obj : JSObject) (vs : List Settled) (st2 : JSObject),
      (objKeys obj).Nodup →
      validateObjectSync schema obj true = .ok (vs, st2) →
      (∀ k, k ∈ objKeys obj → k ∉ schema.map Prod.fst → k ∉ objKeys st2) ∧
      (∀ k, k ∈ schema.map Prod.fst → k ∈ objKeys obj → k ∈ objKeys st2) ∧
      (∀ ds : List Settled,
        validateObject schema obj true ds = .ok (aggregate vs ds, st2)) := by
  intro schema obj vs st2 hnd hok
  refine ⟨sync_unknown_deleted schema obj vs st2 hnd hok,
    sync_declared_kept schema obj vs st2 hnd hok, ?_⟩
  intro ds
  simp [validateObject, hok]

/-- Witness for C9 at the spec's two-field example: one passing chain,
one failing chain, one undeclared `extra` key; after the synchronous
phase `extra` is deleted while the declared failing field remains. -/
theorem sv_C9_witness :
    "extra" ∉ objKeys [("a", JSValue.str "x"), ("b", JSValue.undefined)] ∧
    "b" ∈ objKeys [("a", JSValue.str "x"), ("b", JSValue.undefined)] := by
  have h := sv_C9_trim_unknown_keys
    [("a", .chain [requiredCheck none]), ("b", .chain [requiredCheck none])]
    [("a", .str "x"), ("b", .undefined), ("extra", .num 1)]
    [.resTrue, .resErr ⟨"b", "b is required"⟩]
    [("a", .str "x"), ("b", .undefined)]
    (by decide) rfl
  exact ⟨h.1 "extra" (by simp [objKeys]) (by simp),
    h.2.1 "b" (by simp) (by simp [objKeys])⟩

/-- C10: a schema field mapped to a falsy value launches no chain and
contributes no settlement — the launch loop continues exactly as if the
entry were absent, except that the key is spliced from the pending key
list — so a matching input key counts as declared and survives
trimming. -/
theorem sv_C10_falsy_schema_field :
    (∀ (f : String) (rest : Schema) (st : JSObject) (bp : String)
        (keys : List String),
      launchLoop ((f, SchemaVal.falsy) :: rest) st bp keys
        = launchLoop rest st bp (keys.erase f)) ∧
    (∀ (schema : Schema) (obj : JSObject) (vs : List Settled) (st2 : JSObject)
        (f : String),
      (objKeys obj).Nodup →
      validateObjectSync schema obj true = .ok (vs, st2) →
      (f, SchemaVal.falsy) ∈ schema → f ∈ objKeys obj → f ∈ objKeys st2) := by
  constructor
  · intro f rest st bp keys
    rfl
  · intro schema obj vs st2 f hnd hok hmem hobj
    exact sync_declared_kept schema obj vs st2 hnd hok f
      (List.mem_map.mpr ⟨(f, SchemaVal.falsy), hmem, rfl⟩) hobj

/-- Witness for C10: a falsy schema entry steps to the rest of the
schema with the key spliced, and the declared key of a falsy-valued
field survives trimming on a concrete object. -/
theorem sv_C10_witness :
    launchLoop [("x", SchemaVal.falsy)] [] "" ["x", "y"]
      = launchLoop [] [] "" ["y"] ∧
    "a" ∈ objKeys [("a", JSValue.num 1)] :=
  ⟨sv_C10_falsy_schema_field.1 "x" [] [] "" ["x", "y"],
    sv_C10_falsy_schema_field.2 [("a", .falsy)]
      [("a", .num 1), ("extra", .num 2)] [] [("a", .num 1)] "a"
      (by decide) rfl (by simp) (by simp [objKeys])⟩

/-- C1 (amended): when the orchestrator's synchronous phase launches at
least one chain and every chain resolves (none rejects), the
aggregation promise resolves exactly once, only at the delivery of the
last settlement — no proper prefix of the deliveries settles it — and
the resolved `ValidationResult` is complete: success with no errors
field when no chain produced a Fail, else failure with an error map
holding exactly one entry per failing field, keyed by the Fail's field
name.  With zero launched chains the promise never settles (see the
counterexample), which is the one boundary case where the original
claim fails on the code. -/
theorem sv_C1_aggregate_complete :
    ∀ (schema : Schema) (obj : JSObject) (trimBody : Bool) (vs : List Settled)
      (st2 : JSObject) (ds : List Settled),
      validateObjectSync schema obj trimBody = .ok (vs, st2) →
      (∀ d ∈ vs, d.isRejected = false) →
      vs ≠ [] →
      ((failErrs vs).map ValError.field).Nodup →
      List.Perm ds vs →
      (∀ ds1 ds2, ds = ds1 ++ ds2 → ds2 ≠ [] → aggregate vs ds1 = none) ∧
      (∃ r, aggregate vs ds = some (.resolved r) ∧
        (failErrs vs = [] → r = ⟨true, none⟩) ∧
        (failErrs vs ≠ [] → ∃ m, r = ⟨false, some m⟩ ∧
          (m.map Prod.fst).Nodup ∧
          (∀ f, (m.lookup f).isSome ↔ f ∈ (failErrs vs).map ValError.field) ∧
          (∀ f e, m.lookup f = some e → e ∈ failErrs vs ∧ e.field = f))) := by
  intro schema obj trimBody vs st2 ds hok hres hne hnd hperm
  have hlen : ds.length = vs.length := hperm.length_eq
  have hres2 : ∀ d ∈ ds, d.isRejected = false :=
    fun d hd => hres d (hperm.mem_iff.mp hd)
  have hfe : List.Perm (failErrs ds) (failErrs vs) := hperm.filterMap _
  constructor
  · intro ds1 ds2 heq hne2
    have hd1 : ∀ d ∈ ds1, d.isRejected = false := by
      intro d hd
      exact hres2 d (heq ▸ List.mem_append_left ds2 hd)
    have hlt : 0 + ds1.length < vs.length := by
      have : ds.length = ds1.length + ds2.length := by rw [heq, List.length_append]
      have h2 : 1 ≤ ds2.length := List.length_pos.mpr hne2
      omega
    exact aggGo_none vs.length ds1 0 [] hd1 hlt
  · have hdne : ds ≠ [] := by
      intro hc
      rw [hc] at hlen
      exact hne (List.eq_nil_of_length_eq_zero hlen.symm)
    have hfull := aggGo_last vs.length ds 0 [] hres2 (by omega) hdne
    refine ⟨mkResult (collectErrs [] ds), hfull, ?_, ?_⟩
    · intro hfv
      have hfd : failErrs ds = [] := by
        have h2 := hfe
        rw [hfv] at h2
        exact h2.eq_nil
      rw [collectErrs_no_fail ds [] hfd]
      rfl
    · intro hfv
      have hfd : failErrs ds ≠ [] := by
        intro hc
        have h2 := hfe
        rw [hc] at h2
        exact hfv h2.symm.eq_nil
      refine ⟨collectErrs [] ds, ?_, collectErrs_keys_nodup ds [] (by simp), ?_, ?_⟩
      · have hmne : collectErrs [] ds ≠ [] := collectErrs_of_fail ds [] hfd
        simp [mkResult, hmne]
      · intro f
        rw [collectErrs_lookup_isSome ds [] f]
        simp only [List.lookup_nil, Option.isSome_none, Bool.false_eq_true,
          false_or]
        exact List.Perm.mem_iff (hfe.map ValError.field)
      · intro f e hle
        rcases collectErrs_lookup_eq ds [] f e hle with h1 | h1
        · simp [List.lookup_nil] at h1
        · exact ⟨hfe.mem_iff.mp h1.1, h1.2⟩

/-- Counterexample for C1's zero-chain boundary case: on the empty
schema the synchronous phase launches zero chains, the only possible
delivery sequence is empty, and the aggregation promise never settles —
`aggregate` yields `none` instead of a resolved `ValidationResult`, so
the orchestrator's promise does not resolve at all (the `forEach` over
an empty `validations` array never invokes the resolver). -/
theorem sv_C1_counterexample :
    validateObjectSync [] [] true = Except.ok ([], []) ∧
    aggregate [] [] = none ∧
    validateObject [] [] true [] = Except.ok (none, []) :=
  ⟨rfl, rfl, rfl⟩

/-- Witness for C1 at a concrete two-chain run, delivered in the
reverse of launch order: no settlement after only the first delivery,
and a resolved result at the second. -/
theorem sv_C1_witness :
    aggregate [Settled.resTrue, Settled.resErr ⟨"b", "b is required"⟩]
        [Settled.resErr ⟨"b", "b is required"⟩] = none ∧
    ∃ r, aggregate [Settled.resTrue, Settled.resErr ⟨"b", "b is required"⟩]
        [Settled.resErr ⟨"b", "b is required"⟩, Settled.resTrue]
      = some (.resolved r) := by
  have h := sv_C1_aggregate_complete
    [("a", .chain [requiredCheck none]), ("b", .chain [requiredCheck none])]
    [("a", .str "x"), ("b", .undefined)] true
    [.resTrue, .resErr ⟨"b", "b is required"⟩]
    [("a", .str "x"), ("b", .undefined)]
    [.resErr ⟨"b", "b is required"⟩, .resTrue]
    rfl (by decide) (by decide) (by decide)
    (List.Perm.swap Settled.resTrue (Settled.resErr ⟨"b", "b is required"⟩) [])
  refine ⟨h.1 [.resErr ⟨"b", "b is required"⟩] [.resTrue] rfl (by decide), ?_⟩
  obtain ⟨r, hr, -⟩ := h.2
  exact ⟨r, hr⟩
